import Mathlib

/-!
Verification of the resumable chunked-upload server (`src/server.py`).

The Python source is shallowly embedded:

* Strings (query parameters, path segments) are `List Char`; `Str` below.
* Byte streams and file contents are `List Byte` with `Byte := Nat`.
* Filesystem paths are lists of path segments (`Path := List Str`), taken
  relative to the upload root `UPLOAD_ROOT`; the staging directory
  `TMP_DIR = UPLOAD_ROOT/.incoming` appears as the leading segment
  `DOT_INCOMING` of staging paths.
* The filesystem is an association list from paths to file contents
  (`FS` below).  Only regular files are modelled; `mkdir(parents=True,
  exist_ok=True)` has no observable effect in this model, so it is dropped.
* The model is single-threaded and error-free: `os.replace` /
  `shutil.move` always succeed, so the retry loop of
  `_atomic_move_with_retry` and the exception handlers of
  `upload_finish` collapse to a plain move.
* A missing query parameter is `Option.none`; Flask's
  `request.args.get(k, d)` becomes `Option.getD`.  An uncaught Python
  `ValueError` from `int(...)` (HTTP 500 in Flask) is the `serverError`
  response constructor; `abort(400, ...)` is `badRequest`.
-/

abbrev Byte := Nat

abbrev Str := List Char

abbrev FPath := List Str

/-- The filesystem: an association list from paths to file contents.
Lookup takes the first matching entry. -/
abbrev FS := List (FPath × List Byte)

/-- Content of the regular file at `p`, if one exists. -/
def fsGet : FS → FPath → Option (List Byte)
  | [], _ => none
  | e :: rest, p => if e.1 = p then some e.2 else fsGet rest p

/-- Model of `Path.exists()` of the Python source, on the file-only filesystem model. -/
def fsHas (fs : FS) (p : FPath) : Bool :=
  (fsGet fs p).isSome

/-- Create or overwrite the file at `p` with content `c`. -/
def fsSet (fs : FS) (p : FPath) (c : List Byte) : FS :=
  (p, c) :: fs

/-- Delete the file at `p` (no-op when absent). -/
def fsDel (fs : FS) (p : FPath) : FS :=
  fs.filter (fun e => decide (e.1 ≠ p))

/-- Model of `stat().st_size`: length of the file at `p`, `0` when absent. -/
def fileLen (fs : FS) (p : FPath) : Nat :=
  ((fsGet fs p).getD []).length

theorem fsGet_fsSet_self (fs : FS) (p : FPath) (c : List Byte) :
    fsGet (fsSet fs p c) p = some c := by
  simp [fsSet, fsGet]

theorem fsGet_fsSet_ne (fs : FS) (p q : FPath) (c : List Byte) (h : q ≠ p) :
    fsGet (fsSet fs p c) q = fsGet fs q := by
  have hpq : p ≠ q := fun hpq => h hpq.symm
  simp [fsSet, fsGet, hpq]

theorem fsGet_fsDel_self (fs : FS) (p : FPath) :
    fsGet (fsDel fs p) p = none := by
  induction fs with
  | nil => rfl
  | cons e rest ih =>
      by_cases he : e.1 = p
      · simpa [fsDel, fsGet, he, List.filter] using ih
      · simpa [fsDel, fsGet, he, List.filter] using ih

theorem fsGet_fsDel_ne (fs : FS) (p q : FPath) (h : q ≠ p) :
    fsGet (fsDel fs p) q = fsGet fs q := by
  have hpq : p ≠ q := fun hpq => h hpq.symm
  induction fs with
  | nil => rfl
  | cons e rest ih =>
      by_cases he : e.1 = p
      · have heq : e.1 ≠ q := fun hq => h (hq ▸ he ▸ rfl)
        simpa [fsDel, fsGet, he, heq, hpq, List.filter] using ih
      · by_cases hq : e.1 = q
        · simp [fsDel, fsGet, he, hq, hpq, h, List.filter]
        · simpa [fsDel, fsGet, he, hq, hpq, h, List.filter] using ih

/-! ### Python string helpers -/

/-- The whitespace characters stripped by Python's `str.strip()` /
split on by `str.split()` (ASCII subset; exotic Unicode whitespace is
not modelled, no claim exercises it). -/
def isPySpace (c : Char) : Bool :=
  c = ' ' || c = '\t' || c = '\n' || c = '\r' || c = '\x0b' || c = '\x0c'

/-- Python `str.strip()`. -/
def pyStrip (s : Str) : Str :=
  ((s.dropWhile isPySpace).reverse.dropWhile isPySpace).reverse

/-- Model of `rel.replace("\\", "/")`. -/
def pyReplBackslash (s : Str) : Str :=
  s.map (fun c => if c = '\\' then '/' else c)

/-- Python `str.split("/")` (single-character separator, keeps empty fields). -/
def pySplitSlash : Str → List Str
  | [] => [[]]
  | c :: cs =>
    if c = '/' then [] :: pySplitSlash cs
    else
      match pySplitSlash cs with
      | [] => [[c]]
      | s :: ss => (c :: s) :: ss

/-- One character of the allow-list regex
`SAFE_SEG = ^[ .A-Za-z0-9_\-()+=@#,&{}!$%^~\[\]]{1,255}$`. -/
def safeSegChar (c : Char) : Bool :=
  c = ' ' || c = '.' ||
  (decide ('A' ≤ c) && decide (c ≤ 'Z')) ||
  (decide ('a' ≤ c) && decide (c ≤ 'z')) ||
  (decide ('0' ≤ c) && decide (c ≤ '9')) ||
  c = '_' || c = '-' || c = '(' || c = ')' || c = '+' || c = '=' ||
  c = '@' || c = '#' || c = ',' || c = '&' || c = '\x7b' || c = '\x7d' ||
  c = '!' || c = '$' || c = '%' || c = '^' || c = '~' || c = '[' || c = ']'

/-- Model of `SAFE_SEG.match(seg)`: the whole segment is 1–255 allow-listed
characters.  (`$` subtleties of Python regexes do not arise: segments are
stripped, so they cannot end in a newline.) -/
def safeSegMatch (s : Str) : Bool :=
  decide (1 ≤ s.length) && decide (s.length ≤ 255) && s.all safeSegChar

/-- The loop body of `_safe_relpath`: accumulate sanitized segments,
dropping empty/`.`/`..`, replacing disallowed segments by `"_"`,
truncating to 255 characters, capping the depth at 50. -/
def relLoop : List Str → List Str → List Str
  | [], parts => parts
  | raw :: rest, parts =>
    let seg := pyStrip raw
    if seg = [] ∨ seg = ['.'] ∨ seg = ['.', '.'] then relLoop rest parts
    else
      let seg2 := if safeSegMatch seg then seg else ['_']
      let parts2 := parts ++ [seg2.take 255]
      if 50 ≤ parts2.length then parts2 else relLoop rest parts2

/-- Model of `_safe_relpath` of `src/server.py`: sanitize a client-provided
relative path into a list of path segments. -/
def _safe_relpath (rel : Str) : List Str :=
  relLoop (pySplitSlash (pyReplBackslash rel)) []

/-! ### `secure_filename` (werkzeug) and `_safe_name` -/

/-- Python `str.split()` with no argument: split on runs of whitespace,
producing no empty fields. -/
def pySplitWs : Str → List Str
  | [] => []
  | c :: cs =>
    if isPySpace c then pySplitWs cs
    else (c :: cs.takeWhile (fun d => !isPySpace d)) ::
      pySplitWs (cs.dropWhile (fun d => !isPySpace d))
termination_by s => s.length
decreasing_by
  · simp
  · have := (List.dropWhile_sublist (l := cs) (p := fun d => !isPySpace d)).length_le
    simp
    omega

/-- A character kept by werkzeug's `_filename_ascii_strip_re.sub("", ·)`,
whose pattern is `[^A-Za-z0-9_.-]`. -/
def asciiKeep (c : Char) : Bool :=
  (decide ('A' ≤ c) && decide (c ≤ 'Z')) ||
  (decide ('a' ≤ c) && decide (c ≤ 'z')) ||
  (decide ('0' ≤ c) && decide (c ≤ '9')) ||
  c = '_' || c = '.' || c = '-'

/-- A character stripped from both ends by `.strip("._")`. -/
def isDotUnd (c : Char) : Bool :=
  c = '.' || c = '_'

/-- Python `str.strip("._")`. -/
def stripDotUnd (s : Str) : Str :=
  ((s.dropWhile isDotUnd).reverse.dropWhile isDotUnd).reverse

/-- The Windows reserved device names werkzeug refuses as bare
filenames (`_windows_device_files`). -/
def winDevices : List Str :=
  [['C', 'O', 'N'], ['P', 'R', 'N'], ['A', 'U', 'X'], ['N', 'U', 'L'],
   ['C', 'O', 'M', '0'], ['C', 'O', 'M', '1'], ['C', 'O', 'M', '2'],
   ['C', 'O', 'M', '3'], ['C', 'O', 'M', '4'], ['C', 'O', 'M', '5'],
   ['C', 'O', 'M', '6'], ['C', 'O', 'M', '7'], ['C', 'O', 'M', '8'],
   ['C', 'O', 'M', '9'],
   ['L', 'P', 'T', '0'], ['L', 'P', 'T', '1'], ['L', 'P', 'T', '2'],
   ['L', 'P', 'T', '3'], ['L', 'P', 'T', '4'], ['L', 'P', 'T', '5'],
   ['L', 'P', 'T', '6'], ['L', 'P', 'T', '7'], ['L', 'P', 'T', '8'],
   ['L', 'P', 'T', '9']]

/-- werkzeug's `secure_filename`.  Unicode NFKD normalization followed by
`encode("ascii", "ignore")` is modelled as dropping non-ASCII characters
(identical on ASCII input; no claim exercises non-ASCII names).  The
server runs on Windows (`UPLOAD_ROOT = "D:/..."`), so both `os.sep` and
`os.path.altsep` are replaced and the reserved-device-name prefix rule is
active. -/
def secure_filename (s : Str) : Str :=
  let s1 := s.filter (fun c => decide (c.toNat ≤ 127))
  let s2 := s1.map (fun c => if c = '\\' ∨ c = '/' then ' ' else c)
  let s3 := List.intercalate ['_'] (pySplitWs s2)
  let s4 := s3.filter asciiKeep
  let s5 := stripDotUnd s4
  if s5 ≠ [] ∧ (s5.takeWhile (fun c => !(c = '.'))).map Char.toUpper ∈ winDevices
  then '_' :: s5 else s5

/-- Model of `_safe_name` of `src/server.py`: `secure_filename`, with the fixed
default `"upload.bin"` when sanitization yields the empty name. -/
def _safe_name (name : Str) : Str :=
  let s := secure_filename name
  if s = [] then ['u', 'p', 'l', 'o', 'a', 'd', '.', 'b', 'i', 'n'] else s

/-! ### Path construction -/

/-- The name of the staging directory `TMP_DIR = UPLOAD_ROOT/.incoming`. -/
def DOT_INCOMING : Str :=
  ['.', 'i', 'n', 'c', 'o', 'm', 'i', 'n', 'g']

/-- The `".part"` suffix of staging artifacts. -/
def PART_SUFFIX : Str :=
  ['.', 'p', 'a', 'r', 't']

/-- Model of `_tmp_path` of `src/server.py`: the staging path
`TMP_DIR / _safe_relpath(rel) / (_safe_name(name) + ".part")`, expressed
relative to `UPLOAD_ROOT`. -/
def _tmp_path (name rel : Str) : FPath :=
  DOT_INCOMING :: (_safe_relpath rel ++ [_safe_name name ++ PART_SUFFIX])

/-- Model of `_final_path` of `src/server.py`: the destination path
`UPLOAD_ROOT / _safe_relpath(rel) / _safe_name(name)`, expressed relative
to `UPLOAD_ROOT`. -/
def _final_path (name rel : Str) : FPath :=
  _safe_relpath rel ++ [_safe_name name]

/-! ### Query-parameter parsing -/

/-- Value of a decimal digit list, most significant first. -/
def digitsVal (ds : Str) : Nat :=
  ds.foldl (fun a c => 10 * a + (c.toNat - 48)) 0

/-- Parse an unsigned run of digits (`None` on empty or non-digit input). -/
def digitsOf (ds : Str) : Option Nat :=
  if ds ≠ [] ∧ ds.all Char.isDigit then some (digitsVal ds) else none

/-- Python `int(s)` on a string: optional surrounding whitespace, an
optional sign, then decimal digits; anything else raises `ValueError`
(`none`).  (Numeric-literal underscores and non-ASCII digits, which
CPython also accepts, are not modelled; no claim exercises them.) -/
def pyInt (s : Str) : Option Int :=
  match pyStrip s with
  | [] => none
  | c :: cs =>
    if c = '+' then (digitsOf cs).map (fun n => (n : Int))
    else if c = '-' then (digitsOf cs).map (fun n => -(n : Int))
    else (digitsOf (c :: cs)).map (fun n => (n : Int))

/-- Model of `int(request.args.get(k, "0") or 0)`: a missing parameter defaults to
`"0"`, an empty string is falsy and becomes `0`, anything else goes
through `int(...)`, whose `ValueError` is `none`. -/
def getIntArg (o : Option Str) : Option Int :=
  match o with
  | none => some 0
  | some s => if s = [] then some 0 else pyInt s

/-- Model of `request.args.get(k, "")`. -/
def optStr (o : Option Str) : Str :=
  o.getD []

/-! ### `_unique_path` -/

/-- Model of `pathlib` suffix position: index of the last `'.'` in a file name,
if any (Python `name.rfind(".")`). -/
def rfindDot (name : Str) : Option Nat :=
  match name.reverse.findIdx? (fun c => c = '.') with
  | none => none
  | some j => some (name.length - 1 - j)

/-- Model of `pathlib`'s `(p.stem, p.suffix)` of a file name: split at the last
dot when it is neither the first nor the last character, otherwise the
suffix is empty. -/
def stemSuffix (name : Str) : Str × Str :=
  match rfindDot name with
  | none => (name, [])
  | some i =>
    if 0 < i ∧ i < name.length - 1 then (name.take i, name.drop i)
    else (name, [])

theorem stemSuffix_append (name : Str) :
    (stemSuffix name).1 ++ (stemSuffix name).2 = name := by
  unfold stemSuffix
  cases rfindDot name with
  | none => simp
  | some i =>
      by_cases h : 0 < i ∧ i < name.length - 1 <;> simp [h]

/-- Decimal digits of `n`, most significant first (the characters of
Python's `f"{i}"`). -/
def natDigits (n : Nat) : Str :=
  if n < 10 then [Char.ofNat (48 + n)]
  else natDigits (n / 10) ++ [Char.ofNat (48 + n % 10)]
termination_by n
decreasing_by
  exact Nat.div_lt_self (by omega) (by omega)

theorem natDigits_length_pos (n : Nat) : 1 ≤ (natDigits n).length := by
  unfold natDigits
  by_cases h : n < 10 <;> simp [h]

theorem natDigits_pow_length (k : Nat) :
    (natDigits (10 ^ k)).length = k + 1 := by
  induction k with
  | zero => simp [natDigits]
  | succ k ih =>
      have h10 : ¬(10 ^ (k + 1) < 10) := by
        have : 10 ^ 1 ≤ 10 ^ (k + 1) := Nat.pow_le_pow_right (by omega) (by omega)
        simpa using this
      have hdiv : 10 ^ (k + 1) / 10 = 10 ^ k := by
        rw [pow_succ]
        exact Nat.mul_div_cancel _ (by omega)
      rw [natDigits, if_neg h10, hdiv]
      simp [ih]

/-- The candidate file name `f"{stem} ({i}){suffix}"` of `_unique_path`. -/
def candName (name : Str) (i : Nat) : Str :=
  (stemSuffix name).1 ++ (' ' :: '(' :: natDigits i) ++ (')' :: (stemSuffix name).2)

/-- Model of `p.with_name(f"{stem} ({i}){suffix}")`: the `i`-th collision
candidate for path `p`. -/
def candAt (p : FPath) (i : Nat) : FPath :=
  p.dropLast ++ [candName (p.getLast?.getD []) i]

theorem candName_length (name : Str) (i : Nat) :
    (candName name i).length = name.length + 3 + (natDigits i).length := by
  have h := congrArg List.length (stemSuffix_append name)
  simp [candName] at h ⊢
  omega

/-- The largest file-name (last-segment) length in the filesystem. -/
def maxNameLen (fs : FS) : Nat :=
  fs.foldr (fun e m => max (e.1.getLast?.getD []).length m) 0

theorem name_le_maxNameLen (fs : FS) (q : FPath) (h : fsHas fs q = true) :
    (q.getLast?.getD []).length ≤ maxNameLen fs := by
  induction fs with
  | nil => simp [fsHas, fsGet] at h
  | cons e rest ih =>
      by_cases he : e.1 = q
      · subst he
        exact le_max_left _ _
      · have : fsHas rest q = true := by
          simpa [fsHas, fsGet, he] using h
        exact le_trans (ih this) (le_max_right _ _)

/-- Some collision candidate is always free: a candidate whose numeric
part has more digits than the longest file name in the (finite)
filesystem cannot name an existing file. -/
theorem cand_free (fs : FS) (p : FPath) :
    ∃ i, fsHas fs (candAt p (i + 1)) = false := by
  refine ⟨10 ^ (maxNameLen fs + 1) - 1, ?_⟩
  have hpow : 1 ≤ 10 ^ (maxNameLen fs + 1) := Nat.one_le_pow _ _ (by omega)
  have hidx : 10 ^ (maxNameLen fs + 1) - 1 + 1 = 10 ^ (maxNameLen fs + 1) := by omega
  rw [hidx]
  by_contra hcon
  have hhas : fsHas fs (candAt p (10 ^ (maxNameLen fs + 1))) = true := by
    revert hcon
    cases fsHas fs (candAt p (10 ^ (maxNameLen fs + 1))) <;> simp
  have hle := name_le_maxNameLen fs _ hhas
  rw [candAt, List.getLast?_concat] at hle
  simp [candName_length, natDigits_pow_length] at hle
  omega

/-- Model of `_unique_path` of `src/server.py`: the path itself when free,
otherwise the first candidate `f"{stem} ({i}){suffix}"`, `i = 1, 2, ...`,
that does not exist.  The unbounded `while True` loop is total because
some candidate is always free (`cand_free`); `Nat.find` returns exactly
the first free index the loop would return. -/
def _unique_path (fs : FS) (p : FPath) : FPath :=
  if fsHas fs p = false then p
  else candAt p (Nat.find (cand_free fs p) + 1)

/-! ### The chunk-append read loop -/

/-- The server-side read size: `8 * 1024 * 1024` bytes. -/
def READ_CHUNK : Nat := 8 * 1024 * 1024

/-- The `while True` read-and-write loop of `upload_chunk`: take the
request stream in `READ_CHUNK`-sized pieces, appending each to the file
content and counting the bytes written. -/
def readStream (body file : List Byte) (written : Nat) : List Byte × Nat :=
  if body = [] then (file, written)
  else
    readStream (body.drop READ_CHUNK) (file ++ body.take READ_CHUNK)
      (written + (body.take READ_CHUNK).length)
termination_by body.length
decreasing_by
  have : body.length ≠ 0 := by
    simpa [List.length_eq_zero] using (by assumption : ¬body = [])
  simp [READ_CHUNK]
  omega

theorem readStream_bounded (n : Nat) :
    ∀ body file written, List.length body ≤ n →
      readStream body file written = (file ++ body, written + body.length) := by
  induction n with
  | zero =>
      intro body file written h
      have : body = [] := List.length_eq_zero.mp (by omega)
      subst this
      simp [readStream]
  | succ n ih =>
      intro body file written h
      by_cases hb : body = []
      · subst hb
        simp [readStream]
      · rw [readStream, if_neg hb]
        have hlen : (body.drop READ_CHUNK).length ≤ n := by
          have h1 : body.length ≠ 0 := by
            simpa [List.length_eq_zero] using hb
          simp [READ_CHUNK]
          omega
        rw [ih _ _ _ hlen]
        simp [READ_CHUNK]
        omega

/-- The net effect of the read loop: the whole body is appended and
counted. -/
theorem readStream_spec (body file : List Byte) (written : Nat) :
    readStream body file written = (file ++ body, written + body.length) :=
  readStream_bounded body.length body file written (le_refl _)

/-! ### Responses and handlers -/

/-- Responses of `GET /upload/status`.  `serverError` is an uncaught
`ValueError` from `int(...)` (HTTP 500); `badRequest` is
`abort(400, "name/size required")`; `ok received complete` is
`jsonify({"received": ..})`, with `complete = true` when the JSON body
also carries `"complete": True`. -/
inductive StatusResp
  | serverError
  | badRequest
  | ok (received : Int) (complete : Bool)
deriving DecidableEq

/-- Responses of `POST /upload/chunk`.  `conflict` is the
`409 {"received": current}` offset-mismatch response; `sizeExceeded` is
`abort(400, "received more bytes than declared size")`. -/
inductive ChunkResp
  | serverError
  | badRequest
  | conflict (received : Int)
  | sizeExceeded
  | ok (received : Int)
deriving DecidableEq

/-- Responses of `POST /upload/finish`.  `okResp path already` is
`jsonify({"ok": True, "path": ..})`, with `already = true` when the body
carries the `"note": "already finalized"` field; `notFound` is
`abort(404, ...)`. -/
inductive FinishResp
  | serverError
  | badRequest
  | notFound
  | okResp (path : FPath) (already : Bool)
deriving DecidableEq

/-- Model of `upload_status` of `src/server.py` (`GET /upload/status`).  The
handler performs no filesystem writes (the source contains no `open`,
`mkdir`, rename or delete call), so it is a pure function of the
filesystem. -/
def upload_status (name? size? relpath? : Option Str) (fs : FS) : StatusResp :=
  match getIntArg size? with
  | none => StatusResp.serverError
  | some size =>
    let name := optStr name?
    let relpath := optStr relpath?
    if name = [] ∨ size < 0 then StatusResp.badRequest
    else
      let tmp := _tmp_path name relpath
      match fsGet fs tmp with
      | some c => StatusResp.ok (c.length : Int) false
      | none =>
        match fsGet fs (_final_path name relpath) with
        | some c =>
          if size = 0 ∨ (c.length : Int) = size then
            StatusResp.ok (if size = 0 then (c.length : Int) else size) true
          else StatusResp.ok (c.length : Int) false
        | none => StatusResp.ok 0 false

/-- Model of `upload_chunk` of `src/server.py` (`POST /upload/chunk`): append one
chunk of the request body at the claimed offset. -/
def upload_chunk (name? size? offset? relpath? : Option Str) (body : List Byte)
    (fs : FS) : ChunkResp × FS :=
  match getIntArg size?, getIntArg offset? with
  | some size, some offset =>
    let name := optStr name?
    let relpath := optStr relpath?
    if name = [] ∨ size < 0 ∨ offset < 0 then (ChunkResp.badRequest, fs)
    else
      let tmp := _tmp_path name relpath
      let current := fileLen fs tmp
      if offset ≠ (current : Int) then (ChunkResp.conflict (current : Int), fs)
      else
        let res := readStream body ((fsGet fs tmp).getD []) 0
        let fs2 := fsSet fs tmp res.1
        let received := current + res.2
        if (received : Int) > size ∧ size > 0 then (ChunkResp.sizeExceeded, fs2)
        else (ChunkResp.ok (received : Int), fs2)
  | _, _ => (ChunkResp.serverError, fs)

/-- Model of `upload_finish` of `src/server.py` (`POST /upload/finish`): promote
the staging artifact to its final location.  In the single-threaded,
error-free filesystem model `_atomic_move_with_retry` always succeeds on
its first `os.replace`, so the `FileNotFoundError` and generic exception
handlers of the source are unreachable and the move is
delete-then-create. -/
def upload_finish (name? size? relpath? : Option Str) (fs : FS) :
    FinishResp × FS :=
  match getIntArg size? with
  | none => (FinishResp.serverError, fs)
  | some size =>
    let name := optStr name?
    let relpath := optStr relpath?
    if name = [] then (FinishResp.badRequest, fs)
    else
      let tmp := _tmp_path name relpath
      let finalPref := _final_path name relpath
      let tmpEx := fsHas fs tmp
      let finalPref2 :=
        if fsHas fs finalPref ∧ tmpEx then _unique_path fs finalPref
        else finalPref
      if fsHas fs finalPref ∧ ¬tmpEx ∧
          (size = 0 ∨ (fileLen fs finalPref : Int) = size) then
        (FinishResp.okResp finalPref true, fs)
      else if ¬tmpEx then
        if fsHas fs finalPref2 then (FinishResp.okResp finalPref2 true, fs)
        else (FinishResp.notFound, fs)
      else
        let content := (fsGet fs tmp).getD []
        (FinishResp.okResp finalPref2 false, fsSet (fsDel fs tmp) finalPref2 content)

/-! ### Request sequences on one upload target -/

/-- One request on a fixed upload target: the per-request data of a
chunk call (claimed offset and body), or a status / finish call. -/
inductive OpKind
  | status
  | chunk (offset? : Option Str) (body : List Byte)
  | finish
deriving DecidableEq

/-- The filesystem transition of one request for the target
`(name?, size?, relpath?)`.  `upload_status` performs no writes, so it
leaves the filesystem unchanged. -/
def stepT (name? size? relpath? : Option Str) (fs : FS) : OpKind → FS
  | OpKind.status => fs
  | OpKind.chunk offset? body => (upload_chunk name? size? offset? relpath? body fs).2
  | OpKind.finish => (upload_finish name? size? relpath? fs).2

/-! ### Helper lemmas about stripping and sanitizing -/

theorem dropWhile_head_false {α : Type} (p : α → Bool) :
    ∀ (s : List α) (c : α) (cs : List α), s.dropWhile p = c :: cs → p c = false := by
  intro s
  induction s with
  | nil => intro c cs h; simp [List.dropWhile] at h
  | cons a as ih =>
      intro c cs h
      by_cases hp : p a = true
      · exact ih c cs (by simpa [List.dropWhile, hp] using h)
      · have hpa : p a = false := by
          cases hq : p a
          · rfl
          · exact absurd hq hp
        rw [List.dropWhile, hpa] at h
        cases h
        exact hpa

theorem dropWhile_append_last {α : Type} (p : α → Bool) (x : α) (hx : p x = false) :
    ∀ (l : List α), ∃ t, (l ++ [x]).dropWhile p = t ++ [x] := by
  intro l
  induction l with
  | nil => exact ⟨[], by simp [List.dropWhile, hx]⟩
  | cons a as ih =>
      by_cases hp : p a = true
      · obtain ⟨t, ht⟩ := ih
        exact ⟨t, by simpa [List.dropWhile, hp] using ht⟩
      · have hpa : p a = false := by
          cases hq : p a
          · rfl
          · exact absurd hq hp
        exact ⟨a :: as, by simp [List.dropWhile, hpa]⟩

theorem strip2_head {α : Type} (p : α → Bool) (s : List α) (c : α) (cs : List α)
    (h : ((s.dropWhile p).reverse.dropWhile p).reverse = c :: cs) : p c = false := by
  cases hd : s.dropWhile p with
  | nil => rw [hd] at h; simp at h
  | cons x xs =>
      have hx : p x = false := dropWhile_head_false p s x xs hd
      rw [hd] at h
      obtain ⟨t, ht⟩ := dropWhile_append_last p x hx xs.reverse
      rw [List.reverse_cons, ht] at h
      simp at h
      rw [h.1] at hx
      exact hx

theorem strip2_subset {α : Type} (p : α → Bool) (s : List α) (a : α)
    (h : a ∈ ((s.dropWhile p).reverse.dropWhile p).reverse) : a ∈ s := by
  rw [List.mem_reverse] at h
  have h1 := (List.dropWhile_sublist (l := (s.dropWhile p).reverse) (p := p)).subset h
  rw [List.mem_reverse] at h1
  exact (List.dropWhile_sublist (l := s) (p := p)).subset h1

/-- The per-segment safety property of sanitized paths: a segment is
nonempty, is not `"."` or `".."`, and contains no path separator. -/
def GoodSeg (s : Str) : Prop :=
  s ≠ [] ∧ s ≠ ['.'] ∧ s ≠ ['.', '.'] ∧ '/' ∉ s ∧ '\\' ∉ s

theorem relLoop_good :
    ∀ (input parts : List Str), (∀ s ∈ parts, GoodSeg s) →
      ∀ s ∈ relLoop input parts, GoodSeg s := by
  intro input
  induction input with
  | nil => intro parts hp s hs; exact hp s (by simpa [relLoop] using hs)
  | cons raw rest ih =>
      intro parts hp s hs
      rw [relLoop] at hs
      by_cases hskip : pyStrip raw = [] ∨ pyStrip raw = ['.'] ∨ pyStrip raw = ['.', '.']
      · rw [if_pos hskip] at hs
        exact ih parts hp s hs
      · rw [if_neg hskip] at hs
        push_neg at hskip
        have hgood : GoodSeg ((if safeSegMatch (pyStrip raw) then pyStrip raw else ['_']).take 255) := by
          by_cases hm : safeSegMatch (pyStrip raw) = true
          · rw [if_pos hm]
            have hm2 : (1 ≤ (pyStrip raw).length ∧ (pyStrip raw).length ≤ 255) ∧
                ∀ c ∈ pyStrip raw, safeSegChar c = true := by
              simpa [safeSegMatch] using hm
            have hlen : (pyStrip raw).length ≤ 255 := hm2.1.2
            have hall : ∀ c ∈ pyStrip raw, safeSegChar c = true := hm2.2
            rw [List.take_of_length_le hlen]
            refine ⟨hskip.1, hskip.2.1, hskip.2.2, ?_, ?_⟩
            · intro hmem
              have := hall _ hmem
              simp [safeSegChar] at this
            · intro hmem
              have := hall _ hmem
              simp [safeSegChar] at this
          · rw [if_neg hm]
            refine ⟨by decide, by decide, by decide, by decide, by decide⟩
        have hp2 : ∀ t ∈ parts ++ [(if safeSegMatch (pyStrip raw) then pyStrip raw else ['_']).take 255], GoodSeg t := by
          intro t ht
          rcases List.mem_append.mp ht with h1 | h2
          · exact hp t h1
          · rw [List.mem_singleton] at h2
            exact h2 ▸ hgood
        by_cases hcap : 50 ≤ (parts ++ [(if safeSegMatch (pyStrip raw) then pyStrip raw else ['_']).take 255]).length
        · rw [if_pos hcap] at hs
          exact hp2 s hs
        · rw [if_neg hcap] at hs
          exact ih _ hp2 s hs

theorem safe_relpath_good (rel : Str) :
    ∀ s ∈ _safe_relpath rel, GoodSeg s :=
  relLoop_good _ [] (by intro s hs; simp at hs)

theorem secure_filename_chars (s : Str) :
    ∀ c ∈ secure_filename s, asciiKeep c = true := by
  intro c hc
  unfold secure_filename at hc
  set s4 := (List.intercalate ['_'] (pySplitWs
    ((s.filter (fun c => decide (c.toNat ≤ 127))).map
      (fun c => if c = '\\' ∨ c = '/' then ' ' else c)))).filter asciiKeep with hs4
  have hsub : ∀ d ∈ stripDotUnd s4, asciiKeep d = true := by
    intro d hd
    have := strip2_subset isDotUnd s4 d (by simpa [stripDotUnd] using hd)
    exact (List.mem_filter.mp this).2
  by_cases hdev : stripDotUnd s4 ≠ [] ∧
      ((stripDotUnd s4).takeWhile (fun c => !(c = '.'))).map Char.toUpper ∈ winDevices
  · rw [if_pos hdev] at hc
    rcases List.mem_cons.mp hc with h1 | h2
    · subst h1; decide
    · exact hsub c h2
  · rw [if_neg hdev] at hc
    exact hsub c hc

theorem secure_filename_head (s : Str) (c : Char) (cs : Str)
    (h : secure_filename s = c :: cs) : c ≠ '.' := by
  unfold secure_filename at h
  set s4 := (List.intercalate ['_'] (pySplitWs
    ((s.filter (fun c => decide (c.toNat ≤ 127))).map
      (fun c => if c = '\\' ∨ c = '/' then ' ' else c)))).filter asciiKeep with hs4
  by_cases hdev : stripDotUnd s4 ≠ [] ∧
      ((stripDotUnd s4).takeWhile (fun c => !(c = '.'))).map Char.toUpper ∈ winDevices
  · rw [if_pos hdev] at h
    cases h
    decide
  · rw [if_neg hdev] at h
    have := strip2_head isDotUnd s4 c cs (by simpa [stripDotUnd] using h)
    simp [isDotUnd] at this
    exact fun hcc => by simp [hcc] at this

theorem safe_name_good (name : Str) : GoodSeg (_safe_name name) := by
  unfold _safe_name
  by_cases he : secure_filename name = []
  · rw [if_pos he]
    refine ⟨by decide, by decide, by decide, by decide, by decide⟩
  · rw [if_neg he]
    obtain ⟨c, cs, hccs⟩ := List.exists_cons_of_ne_nil he
    have hhead : c ≠ '.' := secure_filename_head name c cs hccs
    have hchars := secure_filename_chars name
    rw [hccs] at hchars ⊢
    refine ⟨by simp, ?_, ?_, ?_, ?_⟩
    · intro hcon
      cases hcon
      exact hhead rfl
    · intro hcon
      cases hcon
      exact hhead rfl
    · intro hmem
      have := hchars '/' hmem
      simp [asciiKeep] at this
    · intro hmem
      have := hchars '\\' hmem
      simp [asciiKeep] at this

/-! ### Path-shape lemmas -/

/-- The staging path of the target described by the (optional) `name` and
`relpath` query parameters. -/
def tmpOf (name? relpath? : Option Str) : FPath :=
  _tmp_path (optStr name?) (optStr relpath?)

/-- The preferred final path of the target described by the (optional)
`name` and `relpath` query parameters. -/
def finalOf (name? relpath? : Option Str) : FPath :=
  _final_path (optStr name?) (optStr relpath?)

theorem tmp_path_length (n r : Str) :
    (_tmp_path n r).length = (_safe_relpath r).length + 2 := by
  simp [_tmp_path]

theorem final_path_length (n r : Str) :
    (_final_path n r).length = (_safe_relpath r).length + 1 := by
  simp [_final_path]

theorem candAt_final_eq (n r : Str) (i : Nat) :
    candAt (_final_path n r) i =
      _safe_relpath r ++ [candName (_safe_name n) i] := by
  simp [candAt, _final_path, List.dropLast_concat, List.getLast?_concat]

theorem candAt_final_length (n r : Str) (i : Nat) :
    (candAt (_final_path n r) i).length = (_safe_relpath r).length + 1 := by
  simp [candAt_final_eq]

theorem unique_path_final_length (fs : FS) (n r : Str) :
    (_unique_path fs (_final_path n r)).length = (_safe_relpath r).length + 1 := by
  unfold _unique_path
  by_cases h : fsHas fs (_final_path n r) = false
  · simp [h, final_path_length]
  · simp [h, candAt_final_length]

theorem tmp_ne_final (n r : Str) : _tmp_path n r ≠ _final_path n r := by
  intro h
  have := congrArg List.length h
  rw [tmp_path_length, final_path_length] at this
  omega

theorem tmp_ne_unique (fs : FS) (n r : Str) :
    _tmp_path n r ≠ _unique_path fs (_final_path n r) := by
  intro h
  have := congrArg List.length h
  rw [tmp_path_length, unique_path_final_length] at this
  omega

theorem cand_ne_final (n r : Str) (i : Nat) :
    candAt (_final_path n r) i ≠ _final_path n r := by
  intro h
  rw [candAt_final_eq, _final_path] at h
  have hname : candName (_safe_name n) i = _safe_name n := by
    have := List.append_cancel_left h
    simpa using this
  have hlen := congrArg List.length hname
  rw [candName_length] at hlen
  have := natDigits_length_pos i
  omega

/-! ### Handler characterization lemmas -/

/-- The chunk handler either leaves the filesystem unchanged or appends
the whole request body to the target's staging file. -/
theorem upload_chunk_fs (name? size? offset? relpath? : Option Str)
    (body : List Byte) (fs : FS) :
    (upload_chunk name? size? offset? relpath? body fs).2 = fs ∨
    (upload_chunk name? size? offset? relpath? body fs).2 =
      fsSet fs (tmpOf name? relpath?)
        (((fsGet fs (tmpOf name? relpath?)).getD []) ++ body) := by
  cases hs : getIntArg size? with
  | none => left; simp [upload_chunk, hs]
  | some size =>
      cases ho : getIntArg offset? with
      | none => left; simp [upload_chunk, hs, ho]
      | some offset =>
          simp only [upload_chunk, hs, ho]
          by_cases hv : optStr name? = [] ∨ size < 0 ∨ offset < 0
          · left; simp [hv]
          · rw [if_neg hv]
            by_cases hoff : offset ≠ (fileLen fs (_tmp_path (optStr name?) (optStr relpath?)) : Int)
            · left; simp only [if_pos hoff]
            · rw [if_neg hoff, readStream_spec]
              right
              split <;> simp [tmpOf]

/-- The finish handler either leaves the filesystem unchanged or moves
the staging file to a destination path sitting directly under the
destination tree (one segment below the sanitized relative directory). -/
theorem upload_finish_fs (name? size? relpath? : Option Str) (fs : FS) :
    (upload_finish name? size? relpath? fs).2 = fs ∨
    (fsHas fs (tmpOf name? relpath?) = true ∧
     ∃ dst, dst.length = (_safe_relpath (optStr relpath?)).length + 1 ∧
       (upload_finish name? size? relpath? fs).2 =
         fsSet (fsDel fs (tmpOf name? relpath?)) dst
           ((fsGet fs (tmpOf name? relpath?)).getD [])) := by
  cases hs : getIntArg size? with
  | none => left; simp [upload_finish, hs]
  | some size =>
      simp only [upload_finish, hs]
      by_cases hn : optStr name? = []
      · left; simp [hn]
      · rw [if_neg hn]
        by_cases halready : fsHas fs (_final_path (optStr name?) (optStr relpath?)) = true ∧
            ¬fsHas fs (_tmp_path (optStr name?) (optStr relpath?)) = true ∧
            (size = 0 ∨ (fileLen fs (_final_path (optStr name?) (optStr relpath?)) : Int) = size)
        · left; simp [halready]
        · rw [if_neg halready]
          by_cases htmp : fsHas fs (_tmp_path (optStr name?) (optStr relpath?)) = true
          · simp only [htmp, not_true, if_neg, if_false]
            right
            refine ⟨htmp, ?_⟩
            by_cases hfin : fsHas fs (_final_path (optStr name?) (optStr relpath?)) = true
            · refine ⟨_unique_path fs (_final_path (optStr name?) (optStr relpath?)),
                unique_path_final_length fs _ _, ?_⟩
              simp [hfin, htmp, tmpOf]
            · refine ⟨_final_path (optStr name?) (optStr relpath?),
                final_path_length _ _, ?_⟩
              simp [hfin, htmp, tmpOf]
          · left
            simp only [htmp]
            by_cases hfin2 : fsHas fs (_final_path (optStr name?) (optStr relpath?)) = true <;>
              simp [hfin2]

/-- Shape of a chunk request that passes validation and arrives at the
matching offset: the body is appended and the response is `ok` with the
new total, or the post-hoc size-exceeded error. -/
theorem upload_chunk_match (name? size? offset? relpath? : Option Str)
    (body : List Byte) (fs : FS) (size offset : Int)
    (hs : getIntArg size? = some size) (hsz : 0 ≤ size)
    (ho : getIntArg offset? = some offset) (hn : optStr name? ≠ [])
    (heq : offset = (fileLen fs (tmpOf name? relpath?) : Int)) :
    upload_chunk name? size? offset? relpath? body fs =
      (if ((fileLen fs (tmpOf name? relpath?) + body.length : Nat) : Int) > size ∧ size > 0
       then ChunkResp.sizeExceeded
       else ChunkResp.ok ((fileLen fs (tmpOf name? relpath?) + body.length : Nat) : Int),
       fsSet fs (tmpOf name? relpath?)
         (((fsGet fs (tmpOf name? relpath?)).getD []) ++ body)) := by
  have hoz : 0 ≤ offset := by
    rw [heq]
    exact Int.natCast_nonneg _
  have hv : ¬(optStr name? = [] ∨ size < 0 ∨ offset < 0) := by
    push_neg
    exact ⟨hn, by omega, by omega⟩
  have hne : ¬offset ≠ (fileLen fs (tmpOf name? relpath?) : Int) := by
    simpa using heq
  simp only [upload_chunk, hs, ho, if_neg hv, tmpOf] at *
  rw [if_neg hne, readStream_spec]
  simp
  split <;> rfl

/-- Claim C1: A chunk request (passing parameter validation) whose claimed
offset differs from the current partial length writes nothing and returns
the 409 conflict carrying the true current length. -/
theorem claim1_offset_mismatch_conflict
    (name? size? offset? relpath? : Option Str) (body : List Byte) (fs : FS)
    (size offset : Int)
    (hs : getIntArg size? = some size) (hsz : 0 ≤ size)
    (ho : getIntArg offset? = some offset) (hoz : 0 ≤ offset)
    (hn : optStr name? ≠ [])
    (hne : offset ≠ (fileLen fs (tmpOf name? relpath?) : Int)) :
    upload_chunk name? size? offset? relpath? body fs =
      (ChunkResp.conflict (fileLen fs (tmpOf name? relpath?) : Int), fs) := by
  have hv : ¬(optStr name? = [] ∨ size < 0 ∨ offset < 0) := by
    push_neg
    exact ⟨hn, by omega, by omega⟩
  simp only [upload_chunk, hs, ho, if_neg hv, tmpOf] at *
  rw [if_pos hne]

/-- Witness for C1: offset 3 claimed against an empty filesystem (current
length 0) is answered with `409 {"received": 0}` and no write. -/
theorem claim1_witness :
    upload_chunk (some ['a']) (some ['5']) (some ['3']) none [7] [] =
      (ChunkResp.conflict 0, []) := by
  have h := claim1_offset_mismatch_conflict (some ['a']) (some ['5']) (some ['3'])
    none [7] [] 5 3 (by decide) (by decide) (by decide) (by decide) (by decide)
    (by decide)
  simpa using h

/-- Claim C2, counterexample: A matching-offset chunk request does not
always answer with the received count: with declared size 1, offset 0 and
a 2-byte body against an empty filesystem, the append happens but the
response is the size-exceeded 400 error, not `{"received": 2}`. -/
theorem claim2_counterexample :
    (upload_chunk (some ['a']) (some ['1']) (some ['0']) none [0, 0] []).1 =
      ChunkResp.sizeExceeded ∧
    ChunkResp.sizeExceeded ≠ ChunkResp.ok 2 := by
  constructor
  · have hs : getIntArg (some ['1']) = some 1 := by decide
    have ho : getIntArg (some ['0']) = some 0 := by decide
    simp only [upload_chunk, hs, ho]
    rw [readStream_spec]
    simp [optStr, fileLen, fsGet]
  · intro h
    cases h

/-- Claim C2, amended: A chunk request (passing validation) whose claimed
offset equals the current partial length appends the entire request body
to the partial file, so the new partial length is the previous length
plus the body length; when the resulting total does not exceed a positive
declared size, the response is `ok` with exactly that total. -/
theorem claim2_chunk_append
    (name? size? offset? relpath? : Option Str) (body : List Byte) (fs : FS)
    (size offset : Int)
    (hs : getIntArg size? = some size) (hsz : 0 ≤ size)
    (ho : getIntArg offset? = some offset) (hn : optStr name? ≠ [])
    (heq : offset = (fileLen fs (tmpOf name? relpath?) : Int)) :
    (upload_chunk name? size? offset? relpath? body fs).2 =
      fsSet fs (tmpOf name? relpath?)
        (((fsGet fs (tmpOf name? relpath?)).getD []) ++ body) ∧
    fileLen (upload_chunk name? size? offset? relpath? body fs).2
        (tmpOf name? relpath?) =
      fileLen fs (tmpOf name? relpath?) + body.length ∧
    (¬(((fileLen fs (tmpOf name? relpath?) + body.length : Nat) : Int) > size ∧ size > 0) →
      (upload_chunk name? size? offset? relpath? body fs).1 =
        ChunkResp.ok ((fileLen fs (tmpOf name? relpath?) + body.length : Nat) : Int)) := by
  rw [upload_chunk_match name? size? offset? relpath? body fs size offset hs hsz ho hn heq]
  refine ⟨rfl, ?_, ?_⟩
  · simp [fileLen, fsGet_fsSet_self]
  · intro hex
    simp only [if_neg hex]

/-- Witness for C2 (amended): a 2-byte body at offset 0 against an empty
filesystem with declared size 2 yields a partial of length 2 and
`{"received": 2}`. -/
theorem claim2_witness :
    (upload_chunk (some ['a']) (some ['2']) (some ['0']) none [5, 6] []).2 =
      fsSet [] (tmpOf (some ['a']) none) [5, 6] ∧
    fileLen (upload_chunk (some ['a']) (some ['2']) (some ['0']) none [5, 6] []).2
        (tmpOf (some ['a']) none) = 2 ∧
    (upload_chunk (some ['a']) (some ['2']) (some ['0']) none [5, 6] []).1 =
      ChunkResp.ok 2 := by
  have h := claim2_chunk_append (some ['a']) (some ['2']) (some ['0']) none [5, 6] []
    2 0 (by decide) (by decide) (by decide) (by decide) (by decide)
  refine ⟨by simpa using h.1, by simpa using h.2.1, ?_⟩
  have h3 := h.2.2 (by decide)
  simpa using h3

/-- Claim C6: When a matching-offset chunk pushes the total past a
positive declared size, the error is post hoc: the response is the
size-exceeded 400 error, yet the appended bytes remain in the partial
file (no rollback or truncation).  The declared size lives only in the
request — the server stores no size state that could be changed. -/
theorem claim6_size_exceeded_post_hoc
    (name? size? offset? relpath? : Option Str) (body : List Byte) (fs : FS)
    (size offset : Int)
    (hs : getIntArg size? = some size)
    (ho : getIntArg offset? = some offset) (hn : optStr name? ≠ [])
    (heq : offset = (fileLen fs (tmpOf name? relpath?) : Int))
    (hex : ((fileLen fs (tmpOf name? relpath?) + body.length : Nat) : Int) > size)
    (hpos : 0 < size) :
    (upload_chunk name? size? offset? relpath? body fs).1 =
      ChunkResp.sizeExceeded ∧
    fsGet (upload_chunk name? size? offset? relpath? body fs).2
        (tmpOf name? relpath?) =
      some (((fsGet fs (tmpOf name? relpath?)).getD []) ++ body) := by
  rw [upload_chunk_match name? size? offset? relpath? body fs size offset hs
    (by omega) ho hn heq]
  constructor
  · simp only [if_pos (And.intro hex hpos)]
  · simp [fsGet_fsSet_self]

/-- Witness for C6: declared size 1, offset 0, 2-byte body: response is
the size-exceeded error and the partial file holds both bytes. -/
theorem claim6_witness :
    (upload_chunk (some ['a']) (some ['1']) (some ['0']) none [4, 4] []).1 =
      ChunkResp.sizeExceeded ∧
    fsGet (upload_chunk (some ['a']) (some ['1']) (some ['0']) none [4, 4] []).2
        (tmpOf (some ['a']) none) = some [4, 4] := by
  have h := claim6_size_exceeded_post_hoc (some ['a']) (some ['1']) (some ['0'])
    none [4, 4] [] 1 0 (by decide) (by decide) (by decide) (by decide)
    (by decide) (by decide)
  exact ⟨h.1, by simpa using h.2⟩

/-- The destination the finish handler moves a present staging file to:
the preferred final path, or its first free collision candidate when the
preferred name is occupied. -/
def finalDst (name? relpath? : Option Str) (fs : FS) : FPath :=
  if fsHas fs (finalOf name? relpath?) = true then
    _unique_path fs (finalOf name? relpath?)
  else finalOf name? relpath?

/-- Claim C3: When the final file already exists at the preferred location,
no partial file exists, and the declared size is zero (undeclared) or
matches the final file's size, finish reports idempotent success: the
`already finalized` ok-response with the preferred path, an unchanged
filesystem, and an identical response on an immediate second call. -/
theorem claim3_finish_idempotent
    (name? size? relpath? : Option Str) (fs : FS) (size : Int)
    (hs : getIntArg size? = some size)
    (hn : optStr name? ≠ [])
    (hfin : fsHas fs (finalOf name? relpath?) = true)
    (htmp : fsHas fs (tmpOf name? relpath?) = false)
    (hsz : size = 0 ∨ (fileLen fs (finalOf name? relpath?) : Int) = size) :
    upload_finish name? size? relpath? fs =
      (FinishResp.okResp (finalOf name? relpath?) true, fs) ∧
    upload_finish name? size? relpath? (upload_finish name? size? relpath? fs).2 =
      (FinishResp.okResp (finalOf name? relpath?) true, fs) := by
  have hntmp : ¬fsHas fs (tmpOf name? relpath?) = true := by
    simp [htmp]
  have h1 : upload_finish name? size? relpath? fs =
      (FinishResp.okResp (finalOf name? relpath?) true, fs) := by
    simp only [upload_finish, hs, if_neg hn, finalOf, tmpOf] at *
    rw [if_pos (And.intro hfin (And.intro hntmp hsz))]
  refine ⟨h1, ?_⟩
  rw [h1]
  exact h1

/-- Witness for C3: a finished target (final file of size 1, no partial,
declared size 1) answers `already finalized` twice with the same path and
an unchanged filesystem. -/
theorem claim3_witness :
    upload_finish (some ['a']) (some ['1']) none
        (fsSet [] (finalOf (some ['a']) none) [9]) =
      (FinishResp.okResp (finalOf (some ['a']) none) true,
       fsSet [] (finalOf (some ['a']) none) [9]) ∧
    upload_finish (some ['a']) (some ['1']) none
        (upload_finish (some ['a']) (some ['1']) none
          (fsSet [] (finalOf (some ['a']) none) [9])).2 =
      (FinishResp.okResp (finalOf (some ['a']) none) true,
       fsSet [] (finalOf (some ['a']) none) [9]) :=
  claim3_finish_idempotent (some ['a']) (some ['1']) none
    (fsSet [] (finalOf (some ['a']) none) [9]) 1 (by decide) (by decide)
    (by simp [fsHas, fsGet_fsSet_self])
    (by
      have hne : tmpOf (some ['a']) none ≠ finalOf (some ['a']) none :=
        tmp_ne_final _ _
      unfold fsHas
      rw [fsGet_fsSet_ne _ _ _ _ hne]
      rfl)
    (by
      right
      simp [fileLen, fsGet_fsSet_self])

/-- When a staging file exists, the staging-to-destination path
inequality holds for whichever destination the finish handler picks. -/
theorem tmp_ne_finalDst (name? relpath? : Option Str) (fs : FS) :
    tmpOf name? relpath? ≠ finalDst name? relpath? fs := by
  unfold finalDst
  by_cases hf : fsHas fs (finalOf name? relpath?) = true
  · simpa [hf] using tmp_ne_unique fs (optStr name?) (optStr relpath?)
  · simpa [hf] using tmp_ne_final (optStr name?) (optStr relpath?)

/-- The move branch of the finish handler: when a staging file exists
(and parameters validate), the handler deletes it and creates its content
at `finalDst`, answering with the plain ok-response. -/
theorem upload_finish_move
    (name? size? relpath? : Option Str) (fs : FS) (size : Int)
    (hs : getIntArg size? = some size)
    (hn : optStr name? ≠ [])
    (htmp : fsHas fs (tmpOf name? relpath?) = true) :
    upload_finish name? size? relpath? fs =
      (FinishResp.okResp (finalDst name? relpath? fs) false,
       fsSet (fsDel fs (tmpOf name? relpath?)) (finalDst name? relpath? fs)
         ((fsGet fs (tmpOf name? relpath?)).getD [])) := by
  have hno : ¬(fsHas fs (finalOf name? relpath?) = true ∧
      ¬fsHas fs (tmpOf name? relpath?) = true ∧
      (size = 0 ∨ (fileLen fs (finalOf name? relpath?) : Int) = size)) := by
    intro hcon
    exact hcon.2.1 htmp
  simp only [upload_finish, hs, if_neg hn, finalOf, tmpOf, finalDst] at *
  rw [if_neg hno]
  simp only [htmp, not_true, if_false]
  by_cases hf : fsHas fs (_final_path (optStr name?) (optStr relpath?)) = true
  · simp [hf, htmp]
  · simp [hf, htmp]

/-- Claim C10: Whenever a partial file exists, finish (with any declared
size) moves it to the destination path and reports plain success: the
partial's length is never compared to the declared size, so an incomplete
partial is promoted exactly like a complete one. -/
theorem claim10_finish_ignores_size
    (name? size? relpath? : Option Str) (fs : FS) (size : Int)
    (hs : getIntArg size? = some size)
    (hn : optStr name? ≠ [])
    (htmp : fsHas fs (tmpOf name? relpath?) = true) :
    upload_finish name? size? relpath? fs =
      (FinishResp.okResp (finalDst name? relpath? fs) false,
       fsSet (fsDel fs (tmpOf name? relpath?)) (finalDst name? relpath? fs)
         ((fsGet fs (tmpOf name? relpath?)).getD [])) ∧
    fsGet (upload_finish name? size? relpath? fs).2 (finalDst name? relpath? fs) =
      fsGet fs (tmpOf name? relpath?) ∧
    fsGet (upload_finish name? size? relpath? fs).2 (tmpOf name? relpath?) = none := by
  have hne : tmpOf name? relpath? ≠ finalDst name? relpath? fs :=
    tmp_ne_finalDst name? relpath? fs
  obtain ⟨c, hc⟩ := Option.isSome_iff_exists.mp (by simpa [fsHas] using htmp)
  have h1 := upload_finish_move name? size? relpath? fs size hs hn htmp
  refine ⟨h1, ?_, ?_⟩
  · rw [h1]
    rw [fsGet_fsSet_self, hc]
    rfl
  · rw [h1]
    have := fsGet_fsSet_ne (fsDel fs (tmpOf name? relpath?))
      (finalDst name? relpath? fs) (tmpOf name? relpath?)
      ((fsGet fs (tmpOf name? relpath?)).getD []) hne
    rw [this, fsGet_fsDel_self]

/-- Witness for C10: a 1-byte partial with declared size 3 (incomplete)
is still moved to the (free) preferred final path and reported ok. -/
theorem claim10_witness :
    upload_finish (some ['a']) (some ['3']) none
        (fsSet [] (tmpOf (some ['a']) none) [7]) =
      (FinishResp.okResp
        (finalDst (some ['a']) none (fsSet [] (tmpOf (some ['a']) none) [7])) false,
       fsSet (fsDel (fsSet [] (tmpOf (some ['a']) none) [7]) (tmpOf (some ['a']) none))
         (finalDst (some ['a']) none (fsSet [] (tmpOf (some ['a']) none) [7]))
         [7]) ∧
    fsGet (upload_finish (some ['a']) (some ['3']) none
        (fsSet [] (tmpOf (some ['a']) none) [7])).2
        (finalDst (some ['a']) none (fsSet [] (tmpOf (some ['a']) none) [7])) =
      some [7] := by
  have h := claim10_finish_ignores_size (some ['a']) (some ['3']) none
    (fsSet [] (tmpOf (some ['a']) none) [7]) 3 (by decide) (by decide)
    (by simp [fsHas, fsGet_fsSet_self])
  refine ⟨?_, ?_⟩
  · have h1 := h.1
    rw [fsGet_fsSet_self] at h1
    simpa using h1
  · rw [h.2.1, fsGet_fsSet_self]

/-- The index chosen by `_unique_path`'s `while` loop: the least `i ≥ 1`
whose candidate does not exist. -/
def uniqueIdx (fs : FS) (p : FPath) : Nat :=
  Nat.find (cand_free fs p) + 1

theorem unique_path_of_occupied (fs : FS) (p : FPath)
    (h : fsHas fs p = true) :
    _unique_path fs p = candAt p (uniqueIdx fs p) := by
  unfold _unique_path uniqueIdx
  rw [if_neg (by simp [h])]

theorem uniqueIdx_free (fs : FS) (p : FPath) :
    fsHas fs (candAt p (uniqueIdx fs p)) = false :=
  Nat.find_spec (cand_free fs p)

theorem uniqueIdx_min (fs : FS) (p : FPath) :
    ∀ j, 1 ≤ j → j < uniqueIdx fs p → fsHas fs (candAt p j) = true := by
  intro j hj1 hjlt
  obtain ⟨m, rfl⟩ := Nat.exists_eq_add_of_le hj1
  have hm : m < Nat.find (cand_free fs p) := by
    unfold uniqueIdx at hjlt
    omega
  have := Nat.find_min (cand_free fs p) hm
  rw [Nat.add_comm 1 m]
  cases hb : fsHas fs (candAt p (m + 1))
  · exact absurd hb this
  · rfl

/-- Claim C4: Finishing while both the preferred final file and a partial
exist moves the partial to the collision candidate `"stem (i)suffix"` for
the smallest `i ≥ 1` whose name is free, leaves the pre-existing file at
the preferred name unchanged, and reports the disambiguated path. -/
theorem claim4_collision_disambiguation
    (name? size? relpath? : Option Str) (fs : FS) (size : Int)
    (hs : getIntArg size? = some size)
    (hn : optStr name? ≠ [])
    (htmp : fsHas fs (tmpOf name? relpath?) = true)
    (hfin : fsHas fs (finalOf name? relpath?) = true) :
    1 ≤ uniqueIdx fs (finalOf name? relpath?) ∧
    fsHas fs (candAt (finalOf name? relpath?)
      (uniqueIdx fs (finalOf name? relpath?))) = false ∧
    (∀ j, 1 ≤ j → j < uniqueIdx fs (finalOf name? relpath?) →
      fsHas fs (candAt (finalOf name? relpath?) j) = true) ∧
    (upload_finish name? size? relpath? fs).1 =
      FinishResp.okResp (candAt (finalOf name? relpath?)
        (uniqueIdx fs (finalOf name? relpath?))) false ∧
    fsGet (upload_finish name? size? relpath? fs).2 (finalOf name? relpath?) =
      fsGet fs (finalOf name? relpath?) ∧
    fsGet (upload_finish name? size? relpath? fs).2
        (candAt (finalOf name? relpath?) (uniqueIdx fs (finalOf name? relpath?))) =
      fsGet fs (tmpOf name? relpath?) := by
  have hdst : finalDst name? relpath? fs =
      candAt (finalOf name? relpath?) (uniqueIdx fs (finalOf name? relpath?)) := by
    unfold finalDst
    rw [if_pos hfin]
    exact unique_path_of_occupied fs _ hfin
  have hmove := upload_finish_move name? size? relpath? fs size hs hn htmp
  rw [hdst] at hmove
  obtain ⟨c, hc⟩ := Option.isSome_iff_exists.mp (by simpa [fsHas] using htmp)
  have hfc : finalOf name? relpath? ≠
      candAt (finalOf name? relpath?) (uniqueIdx fs (finalOf name? relpath?)) :=
    fun h => cand_ne_final (optStr name?) (optStr relpath?) _ h.symm
  have hft : finalOf name? relpath? ≠ tmpOf name? relpath? :=
    fun h => tmp_ne_final (optStr name?) (optStr relpath?) h.symm
  refine ⟨by unfold uniqueIdx; omega, uniqueIdx_free fs _, uniqueIdx_min fs _,
    by rw [hmove], ?_, ?_⟩
  · rw [hmove]
    rw [fsGet_fsSet_ne _ _ _ _ hfc, fsGet_fsDel_ne _ _ _ hft]
  · rw [hmove]
    rw [fsGet_fsSet_self, hc]
    rfl

/-- Witness for C4: both a pre-existing final file `[9]` and a partial
`[1]` exist; finish moves the partial to the first free candidate, keeps
the pre-existing file intact, and reports the candidate path. -/
theorem claim4_witness :
    (upload_finish (some ['a']) (some ['1']) none
        (fsSet (fsSet [] (finalOf (some ['a']) none) [9])
          (tmpOf (some ['a']) none) [1])).1 =
      FinishResp.okResp (candAt (finalOf (some ['a']) none)
        (uniqueIdx
          (fsSet (fsSet [] (finalOf (some ['a']) none) [9])
            (tmpOf (some ['a']) none) [1])
          (finalOf (some ['a']) none))) false ∧
    fsGet (upload_finish (some ['a']) (some ['1']) none
        (fsSet (fsSet [] (finalOf (some ['a']) none) [9])
          (tmpOf (some ['a']) none) [1])).2 (finalOf (some ['a']) none) =
      some [9] ∧
    fsGet (upload_finish (some ['a']) (some ['1']) none
        (fsSet (fsSet [] (finalOf (some ['a']) none) [9])
          (tmpOf (some ['a']) none) [1])).2
        (candAt (finalOf (some ['a']) none)
          (uniqueIdx
            (fsSet (fsSet [] (finalOf (some ['a']) none) [9])
              (tmpOf (some ['a']) none) [1])
            (finalOf (some ['a']) none))) =
      some [1] := by
  have hft : finalOf (some ['a']) none ≠ tmpOf (some ['a']) none :=
    fun h => tmp_ne_final (optStr (some ['a'])) (optStr none) h.symm
  have h := claim4_collision_disambiguation (some ['a']) (some ['1']) none
    (fsSet (fsSet [] (finalOf (some ['a']) none) [9]) (tmpOf (some ['a']) none) [1])
    1 (by decide) (by decide)
    (by simp [fsHas, fsGet_fsSet_self])
    (by
      unfold fsHas
      rw [fsGet_fsSet_ne _ _ _ _ hft, fsGet_fsSet_self]
      rfl)
  refine ⟨h.2.2.2.1, ?_, ?_⟩
  · rw [h.2.2.2.2.1]
    rw [fsGet_fsSet_ne _ _ _ _ hft, fsGet_fsSet_self]
  · rw [h.2.2.2.2.2]
    rw [fsGet_fsSet_self]

theorem part_name_good (name : Str) : GoodSeg (_safe_name name ++ PART_SUFFIX) := by
  obtain ⟨hne, _hd1, _hd2, hsl, hbs⟩ := safe_name_good name
  have hlen : 1 ≤ (_safe_name name).length := by
    cases hname : _safe_name name
    · exact absurd hname hne
    · simp
  refine ⟨by simp [PART_SUFFIX], ?_, ?_, ?_, ?_⟩
  · intro hcon
    have := congrArg List.length hcon
    simp [PART_SUFFIX] at this
  · intro hcon
    have := congrArg List.length hcon
    simp [PART_SUFFIX] at this
  · intro hmem
    rcases List.mem_append.mp hmem with h1 | h2
    · exact hsl h1
    · simp [PART_SUFFIX] at h2
  · intro hmem
    rcases List.mem_append.mp hmem with h1 | h2
    · exact hbs h1
    · simp [PART_SUFFIX] at h2

/-- Claim C5: Every client-supplied relative path sanitizes to segments
that are nonempty, are never `"."` or `".."`, and contain no `/` or `\`;
consequently every segment of the derived staging and final paths has the
same property, so both paths stay strictly confined under their
respective roots. -/
theorem claim5_traversal_safety (name rel : Str) :
    (∀ s ∈ _safe_relpath rel, GoodSeg s) ∧
    (∀ s ∈ _tmp_path name rel, GoodSeg s) ∧
    (∀ s ∈ _final_path name rel, GoodSeg s) := by
  refine ⟨safe_relpath_good rel, ?_, ?_⟩
  · intro s hs
    rcases List.mem_cons.mp hs with h1 | h2
    · subst h1
      refine ⟨by decide, by decide, by decide, by decide, by decide⟩
    · rcases List.mem_append.mp h2 with h3 | h4
      · exact safe_relpath_good rel s h3
      · rw [List.mem_singleton] at h4
        exact h4 ▸ part_name_good name
  · intro s hs
    rcases List.mem_append.mp hs with h1 | h2
    · exact safe_relpath_good rel s h1
    · rw [List.mem_singleton] at h2
      exact h2 ▸ safe_name_good name

/-- Claim C7: Status reporting: a present partial answers its current
length without the completeness flag; otherwise a present final file
answers with the completeness flag exactly when the declared size is zero
(absent) or equals the final size, reporting the final file's size, and
without the flag (actual size) on a mismatch; otherwise `received = 0`.
The handler performs no writes (`stepT` leaves the filesystem unchanged
on a status request by construction, mirroring the write-free source). -/
theorem claim7_status
    (name? size? relpath? : Option Str) (fs : FS) (size : Int)
    (hs : getIntArg size? = some size) (hn : optStr name? ≠ []) (hsz : 0 ≤ size) :
    (∀ c, fsGet fs (tmpOf name? relpath?) = some c →
      upload_status name? size? relpath? fs = StatusResp.ok (c.length : Int) false) ∧
    (fsGet fs (tmpOf name? relpath?) = none →
      ∀ c, fsGet fs (finalOf name? relpath?) = some c →
        ((size = 0 ∨ (c.length : Int) = size) →
          upload_status name? size? relpath? fs = StatusResp.ok (c.length : Int) true) ∧
        (¬(size = 0 ∨ (c.length : Int) = size) →
          upload_status name? size? relpath? fs = StatusResp.ok (c.length : Int) false) ∧
        (∀ r : Int, upload_status name? size? relpath? fs = StatusResp.ok r true →
          size = 0 ∨ (c.length : Int) = size)) ∧
    (fsGet fs (tmpOf name? relpath?) = none →
      fsGet fs (finalOf name? relpath?) = none →
      upload_status name? size? relpath? fs = StatusResp.ok 0 false) ∧
    (∀ gs : FS, stepT name? size? relpath? gs OpKind.status = gs) := by
  have hv : ¬(optStr name? = [] ∨ size < 0) := by
    push_neg
    exact ⟨hn, by omega⟩
  refine ⟨?_, ?_, ?_, fun gs => rfl⟩
  · intro c hc
    simp only [upload_status, hs, if_neg hv, tmpOf] at *
    rw [hc]
  · intro htmp c hc
    have hbase : ∀ r : StatusResp,
        (upload_status name? size? relpath? fs = r) =
        ((if size = 0 ∨ (c.length : Int) = size then
            StatusResp.ok (if size = 0 then (c.length : Int) else size) true
          else StatusResp.ok (c.length : Int) false) = r) := by
      intro r
      simp only [upload_status, hs, if_neg hv, tmpOf, finalOf] at *
      rw [htmp, hc]
    refine ⟨?_, ?_, ?_⟩
    · intro hcond
      rw [hbase, if_pos hcond]
      rcases hcond with h0 | hlen
      · rw [if_pos h0]
      · rw [← hlen]
        split <;> rfl
    · intro hcond
      rw [hbase, if_neg hcond]
    · intro r hr
      by_cases hcond : size = 0 ∨ (c.length : Int) = size
      · exact hcond
      · rw [hbase, if_neg hcond] at hr
        cases hr
  · intro htmp hfin
    simp only [upload_status, hs, if_neg hv, tmpOf, finalOf] at *
    rw [htmp, hfin]

/-- Witness for C7: with a 2-byte partial present the status is
`{"received": 2}` without the completeness flag; with only a 2-byte final
file and declared size 2 it is `{"received": 2, "complete": true}`. -/
theorem claim7_witness :
    upload_status (some ['a']) (some ['2']) none
        (fsSet [] (tmpOf (some ['a']) none) [1, 2]) = StatusResp.ok 2 false ∧
    upload_status (some ['a']) (some ['2']) none
        (fsSet [] (finalOf (some ['a']) none) [1, 2]) = StatusResp.ok 2 true := by
  constructor
  · have h := (claim7_status (some ['a']) (some ['2']) none
      (fsSet [] (tmpOf (some ['a']) none) [1, 2]) 2 (by decide) (by decide)
      (by decide)).1 [1, 2] (by rw [fsGet_fsSet_self])
    simpa using h
  · have hft : tmpOf (some ['a']) none ≠ finalOf (some ['a']) none :=
      tmp_ne_final (optStr (some ['a'])) (optStr none)
    have h := ((claim7_status (some ['a']) (some ['2']) none
      (fsSet [] (finalOf (some ['a']) none) [1, 2]) 2 (by decide) (by decide)
      (by decide)).2.1
      (by rw [fsGet_fsSet_ne _ _ _ _ hft]; rfl)
      [1, 2] (by rw [fsGet_fsSet_self])).1 (by norm_num)
    simpa using h

/-- One request on the same target never shrinks or rewrites the partial
file: if it exists before and after the request, the old content is a
prefix of the new one. -/
theorem stepT_mono (name? size? relpath? : Option Str) (fs : FS) (op : OpKind)
    (c c' : List Byte)
    (h : fsGet fs (tmpOf name? relpath?) = some c)
    (h' : fsGet (stepT name? size? relpath? fs op) (tmpOf name? relpath?) = some c') :
    ∃ t, c ++ t = c' := by
  cases op with
  | status =>
      rw [stepT, h] at h'
      cases h'
      exact ⟨[], List.append_nil c⟩
  | chunk offset? body =>
      rw [stepT] at h'
      rcases upload_chunk_fs name? size? offset? relpath? body fs with hu | hu
      · rw [hu, h] at h'
        cases h'
        exact ⟨[], List.append_nil c⟩
      · rw [hu, fsGet_fsSet_self] at h'
        rw [h] at h'
        cases h'
        exact ⟨body, rfl⟩
  | finish =>
      rw [stepT] at h'
      rcases upload_finish_fs name? size? relpath? fs with hu | hu
      · rw [hu, h] at h'
        cases h'
        exact ⟨[], List.append_nil c⟩
      · obtain ⟨-, dst, hdlen, hmoved⟩ := hu
        have hne : tmpOf name? relpath? ≠ dst := by
          intro hcon
          have hl := congrArg List.length hcon
          rw [hdlen] at hl
          rw [tmpOf] at hl
          rw [tmp_path_length] at hl
          omega
        rw [hmoved, fsGet_fsSet_ne _ _ _ _ hne, fsGet_fsDel_self] at h'
        cases h'

/-- Claim C8: On a fixed upload target, a chunk request either leaves the
partial file's content unchanged or appends the whole body at its end;
and across any sequence of status/chunk/finish requests during which the
partial file continuously exists, its initial content remains a prefix of
its final content — the partial is never truncated or rewritten at an
earlier offset, so its length is non-decreasing while it exists. -/
theorem claim8_partial_append_only (name? size? relpath? : Option Str) :
    (∀ (fs : FS) (offset? : Option Str) (body : List Byte),
      fsGet (stepT name? size? relpath? fs (OpKind.chunk offset? body))
          (tmpOf name? relpath?) = fsGet fs (tmpOf name? relpath?) ∨
      fsGet (stepT name? size? relpath? fs (OpKind.chunk offset? body))
          (tmpOf name? relpath?) =
        some (((fsGet fs (tmpOf name? relpath?)).getD []) ++ body)) ∧
    (∀ (ops : List OpKind) (fs : FS) (c c' : List Byte),
      (∀ g ∈ List.scanl (stepT name? size? relpath?) fs ops,
        (fsGet g (tmpOf name? relpath?)).isSome = true) →
      fsGet fs (tmpOf name? relpath?) = some c →
      fsGet (List.foldl (stepT name? size? relpath?) fs ops)
          (tmpOf name? relpath?) = some c' →
      ∃ t, c ++ t = c') := by
  constructor
  · intro fs offset? body
    rcases upload_chunk_fs name? size? offset? relpath? body fs with hu | hu
    · left
      rw [stepT, hu]
    · right
      rw [stepT, hu, fsGet_fsSet_self]
  · intro ops
    induction ops with
    | nil =>
        intro fs c c' _hall h h'
        rw [List.foldl_nil, h] at h'
        cases h'
        exact ⟨[], List.append_nil c⟩
    | cons op ops ih =>
        intro fs c c' hall h h'
        have hmem : stepT name? size? relpath? fs op ∈
            List.scanl (stepT name? size? relpath?) fs (op :: ops) := by
          rw [List.scanl_cons]
          rcases ops with _ | ⟨op2, ops2⟩
          · simp
          · simp [List.scanl_cons]
        obtain ⟨cm, hcm⟩ := Option.isSome_iff_exists.mp (hall _ hmem)
        obtain ⟨t1, ht1⟩ := stepT_mono name? size? relpath? fs op c cm h hcm
        have hall2 : ∀ g ∈ List.scanl (stepT name? size? relpath?)
            (stepT name? size? relpath? fs op) ops,
            (fsGet g (tmpOf name? relpath?)).isSome = true := by
          intro g hg
          refine hall g ?_
          rw [List.scanl_cons]
          exact List.mem_cons_of_mem _ hg
        obtain ⟨t2, ht2⟩ := ih (stepT name? size? relpath? fs op) cm c' hall2 hcm
          (by rw [List.foldl_cons] at h'; exact h')
        exact ⟨t1 ++ t2, by rw [← List.append_assoc, ht1, ht2]⟩

/-- Witness for C8: starting from a partial `[1]`, one matching chunk
with body `[2]` keeps the partial existing throughout and extends `[1]`
to a list with `[1]` as a prefix. -/
theorem claim8_witness : ∃ t, ([1] : List Byte) ++ t = [1, 2] := by
  have hstep : List.foldl (stepT (some ['a']) (some ['2']) none)
      (fsSet [] (tmpOf (some ['a']) none) [1])
      [OpKind.chunk (some ['1']) [2]] =
      fsSet (fsSet [] (tmpOf (some ['a']) none) [1]) (tmpOf (some ['a']) none)
        [1, 2] := by
    rw [List.foldl_cons, List.foldl_nil, stepT]
    rw [upload_chunk_match (some ['a']) (some ['2']) (some ['1']) none [2]
      (fsSet [] (tmpOf (some ['a']) none) [1]) 2 1 (by decide) (by decide)
      (by decide) (by decide)
      (by simp [fileLen, tmpOf, fsGet_fsSet_self])]
    simp [fsGet_fsSet_self]
  exact (claim8_partial_append_only (some ['a']) (some ['2']) none).2
    [OpKind.chunk (some ['1']) [2]]
    (fsSet [] (tmpOf (some ['a']) none) [1]) [1] [1, 2]
    (by
      intro g hg
      rw [List.scanl_cons] at hg
      rcases List.mem_cons.mp hg with h1 | h2
      · rw [h1, fsGet_fsSet_self]
        rfl
      · have h3 : g = stepT (some ['a']) (some ['2']) none
            (fsSet [] (tmpOf (some ['a']) none) [1]) (OpKind.chunk (some ['1']) [2]) := by
          simpa using h2
        subst h3
        rw [stepT]
        rcases upload_chunk_fs (some ['a']) (some ['2']) (some ['1']) none [2]
          (fsSet [] (tmpOf (some ['a']) none) [1]) with hu | hu
        · rw [hu, fsGet_fsSet_self]
          rfl
        · rw [hu, fsGet_fsSet_self]
          rfl)
    (by rw [fsGet_fsSet_self])
    (by rw [hstep, fsGet_fsSet_self])

/-- Claim C9, counterexample: A status request with the required `size`
parameter entirely missing is not rejected with 400: the missing value
silently defaults to `"0"` and the request succeeds with
`{"received": 0}`. -/
theorem claim9_counterexample :
    upload_status (some ['a']) none none [] = StatusResp.ok 0 false ∧
    StatusResp.ok 0 false ≠ StatusResp.badRequest := by
  constructor
  · rfl
  · intro h
    cases h

/-- Claim C9, amended: An empty or missing name, or a negative parsed
size or offset, is rejected with HTTP 400 before any filesystem write; a
missing size or offset instead defaults to `0` and is accepted; a size or
offset string that does not parse as an integer raises an uncaught
`ValueError` (HTTP 500), also before any write. -/
theorem claim9_validation
    (name? size? offset? relpath? : Option Str) (body : List Byte) (fs : FS) :
    (∀ size offset : Int, getIntArg size? = some size →
      getIntArg offset? = some offset →
      (optStr name? = [] ∨ size < 0 ∨ offset < 0) →
      upload_chunk name? size? offset? relpath? body fs =
        (ChunkResp.badRequest, fs)) ∧
    (getIntArg size? = none ∨ getIntArg offset? = none →
      upload_chunk name? size? offset? relpath? body fs =
        (ChunkResp.serverError, fs)) ∧
    (∀ size : Int, getIntArg size? = some size →
      (optStr name? = [] ∨ size < 0) →
      upload_status name? size? relpath? fs = StatusResp.badRequest) ∧
    (getIntArg size? = none →
      upload_status name? size? relpath? fs = StatusResp.serverError) ∧
    getIntArg none = some 0 := by
  refine ⟨?_, ?_, ?_, ?_, rfl⟩
  · intro size offset hsz hoff hbad
    simp only [upload_chunk, hsz, hoff]
    rw [if_pos hbad]
  · intro hnone
    rcases hnone with h1 | h2
    · simp [upload_chunk, h1]
    · cases hsz : getIntArg size? with
      | none => simp [upload_chunk, hsz]
      | some size => simp [upload_chunk, hsz, h2]
  · intro size hsz hbad
    simp only [upload_status, hsz]
    rw [if_pos hbad]
  · intro hnone
    simp [upload_status, hnone]

/-- Witness for C9 (amended): a missing name is rejected with 400 and no
write; a non-integer size raises the 500-level error and no write; a
negative size is rejected with 400. -/
theorem claim9_witness :
    upload_chunk none (some ['5']) (some ['0']) none [1] [] =
      (ChunkResp.badRequest, []) ∧
    upload_chunk (some ['a']) (some ['x']) (some ['0']) none [1] [] =
      (ChunkResp.serverError, []) ∧
    upload_status (some ['a']) (some ['-', '1']) none [] =
      StatusResp.badRequest := by
  refine ⟨?_, ?_, ?_⟩
  · exact (claim9_validation none (some ['5']) (some ['0']) none [1] []).1
      5 0 (by decide) (by decide) (Or.inl (by decide))
  · exact (claim9_validation (some ['a']) (some ['x']) (some ['0']) none [1] []).2.1
      (Or.inl (by decide))
  · exact (claim9_validation (some ['a']) (some ['-', '1']) none none [1] []).2.2.1
      (-1) (by decide) (Or.inr (by decide))
